import Mathlib

/-!
# Verification of the holopy MPS/MPO expectation-value core

Shallow embedding of `src/mps.py` (classes `MPS` and `MPO`) over an arbitrary
commutative star ring `R`; the Python code computes with complex numbers, which
are one instance.  numpy's row-major `reshape` of a pair of bond indices
`(x, y)` of size `chi * chi` into the flat index `x * chi + y` is modelled by
using the product type `Fin chi × Fin chi` as the flattened index type (the
equivalence `finProdFinEquiv` maps `(x, y)` to `y + chi * x`, the same
row-major encoding; claim C2 spells the flattening out explicitly).

Conventions, from `mps.py`:
* state site tensor index order: (physical, bond-out, bond-in);
* operator site tensor index order: (physical-out, bond-out, physical-in, bond-in);
* transfer matrices act on the doubled (bra, ket) bond space.
-/

open Matrix

set_option maxHeartbeats 1000000

/-- Python exceptions that `mps.py` can raise on the paths modelled here. -/
inductive PyError : Type
  | valueError
  | attributeError
  | indexError
  | notImplementedError
deriving DecidableEq, Repr

/-- The `MPS` object after a successful `__init__`: dimensions `d` (physical) and
`chi` (bond) are read off `tensors[0]`, `L = none` models the `np.inf` sentinel
(iMPS), `bdry_r = none` models the traced-out right boundary (`None`).
The `rcf` constructor argument of the Python class is never stored, so it has
no field here. -/
structure MPS (R : Type) where
  d : ℕ
  chi : ℕ
  l_uc : ℕ
  L : Option ℕ
  tensors : Fin l_uc → Fin d → Fin chi → Fin chi → R
  bdry_l : Fin chi → R
  bdry_r : Option (Fin chi → R)

/-- The `MPO` object, with physical dimension `d` and unit-cell length `l_uc`
matching the state it is inserted into (as `MPS.expect` requires).  The claims
under check always supply explicit boundary vectors, so they are plain fields. -/
structure MPO (R : Type) (d l_uc : ℕ) where
  chi : ℕ
  tensors : Fin l_uc → Fin d → Fin chi → Fin d → Fin chi → R
  bdry_l : Fin chi → R
  bdry_r : Fin chi → R

variable {R : Type} [CommRing R] [StarRing R]

/-- `np.tensordot(self.tensors[j].conj(), self.tensors[j], axes=([0],[0]))`
(mps.py lines 80-83): rank-4 object indexed by
(bra-bond-out `a`, bra-bond-in `b`, ket-bond-out `c`, ket-bond-in `e`). -/
def t_tensor {d χ : ℕ} (A : Fin d → Fin χ → Fin χ → R) (a b c e : Fin χ) : R :=
  ∑ s, star (A s a b) * A s c e

/-- `np.swapaxes(t_tensor,1,2).reshape(chi**2, chi**2)` (mps.py line 85):
row index (bra-bond-out, ket-bond-out), column index (bra-bond-in, ket-bond-in). -/
def t_mat_site {d χ : ℕ} (A : Fin d → Fin χ → Fin χ → R) :
    Matrix (Fin χ × Fin χ) (Fin χ × Fin χ) R :=
  Matrix.of fun p q => t_tensor A p.1 q.1 p.2 q.2

/-- `MPS.transfer_matrix()` with `mpo == None` (mps.py lines 72-87):
`t_mat` starts as the identity and the loop accumulates `t_mat = t_mat_site @ t_mat`
for `j = 0, ..., l_uc - 1`. -/
def MPS.transfer_matrix (s : MPS R) : Matrix (Fin s.chi × Fin s.chi) (Fin s.chi × Fin s.chi) R :=
  (List.finRange s.l_uc).foldl (fun acc j => t_mat_site (s.tensors j) * acc) 1

/-- `mpo_on_ket_reshape` (mps.py lines 95-96): the operator site tensor contracted
with the ket site tensor over (physical-in, physical), with the two bond-out legs
merged (`swapaxes(2,3)` + reshape) into `(mpo bond, mps bond)` pairs. -/
def mpo_on_ket {d χ χo : ℕ} (W : Fin d → Fin χo → Fin d → Fin χo → R)
    (A : Fin d → Fin χ → Fin χ → R) (s : Fin d) (mb nc : Fin χo × Fin χ) : R :=
  ∑ t, W s mb.1 t nc.1 * A t mb.2 nc.2

/-- Per-site transfer matrix with an operator inserted (mps.py lines 100-102):
contract the bra (conjugated ket) with `mpo_on_ket`, swap, and reshape.  Row index
(bra-bond-out, (mpo-bond-out, ket-bond-out)); column likewise with "in". -/
def t_mat_site_mpo {d χ χo : ℕ} (A : Fin d → Fin χ → Fin χ → R)
    (W : Fin d → Fin χo → Fin d → Fin χo → R) :
    Matrix (Fin χ × (Fin χo × Fin χ)) (Fin χ × (Fin χo × Fin χ)) R :=
  Matrix.of fun p q => ∑ s, star (A s p.1 q.1) * mpo_on_ket W A s p.2 q.2

/-- `MPS.transfer_matrix(mpo)` with an operator (mps.py lines 88-103). -/
def MPS.transfer_matrix_mpo (s : MPS R) (W : MPO R s.d s.l_uc) :
    Matrix (Fin s.chi × (Fin W.chi × Fin s.chi)) (Fin s.chi × (Fin W.chi × Fin s.chi)) R :=
  (List.finRange s.l_uc).foldl
    (fun acc j => t_mat_site_mpo (s.tensors j) (W.tensors j) * acc) 1

/-- `np.kron(v.conj(), v)` for a bond vector `v` (mps.py lines 121, 128). -/
def kron2 {χ : ℕ} (v : Fin χ → R) : Fin χ × Fin χ → R :=
  fun p => star (v p.1) * v p.2

/-- `np.kron(v.conj(), np.kron(w, v))` (mps.py lines 132-133, 147-148). -/
def kron3 {χ χo : ℕ} (v : Fin χ → R) (w : Fin χo → R) : Fin χ × (Fin χo × Fin χ) → R :=
  fun p => star (v p.1) * (w p.2.1 * v p.2.2)

/-- `np.eye(chi).reshape(chi**2)` (mps.py lines 125, 144): the flattened identity,
used as the trace-out right contraction vector. -/
def rvec (χ : ℕ) : Fin χ × Fin χ → R :=
  fun p => if p.1 = p.2 then 1 else 0

/-- `MPS.expect(None)` on a finite chain (mps.py lines 116-129): raise the unit-cell
transfer matrix to the `L`-th power and contract with the boundary vectors
(`np.dot` performs no conjugation; the explicit `.conj().T` on `bvec_r` does). -/
def expect_noop (s : MPS R) (L : ℕ) : R :=
  let t := s.transfer_matrix ^ L
  match s.bdry_r with
  | none => rvec s.chi ⬝ᵥ (t *ᵥ kron2 s.bdry_l)
  | some r => star (kron2 r) ⬝ᵥ (t *ᵥ kron2 s.bdry_l)

/-- `MPS.expect(mpo)` on a finite chain (mps.py lines 116-118, 131-149).  In the
trace-out branch the code reshapes `t_mat^L @ bvec_l` to `(chi, mpo.chi, chi)`,
contracts the operator's right boundary vector with the middle leg, and takes the
trace over the remaining (bra, ket) pair. -/
def expect_mpo (s : MPS R) (W : MPO R s.d s.l_uc) (L : ℕ) : R :=
  let t := s.transfer_matrix_mpo W ^ L
  let bl := kron3 s.bdry_l W.bdry_l
  match s.bdry_r with
  | none =>
      let tv := t *ᵥ bl
      rvec s.chi ⬝ᵥ fun p => ∑ m, W.bdry_r m * tv (p.1, m, p.2)
  | some r => star (kron3 r W.bdry_r) ⬝ᵥ (t *ᵥ bl)

/-- `MPS.expect` (mps.py lines 106-161): finite chains use the matrix power,
the infinite sentinel (`L = np.inf`) raises `NotImplementedError` (line 157). -/
def MPS.expect (s : MPS R) (mpo : Option (MPO R s.d s.l_uc)) : Except PyError R :=
  match s.L with
  | some L =>
      match mpo with
      | none => .ok (expect_noop s L)
      | some W => .ok (expect_mpo s W L)
  | none => .error .notImplementedError

/-- Right-canonical form of a single site tensor, as used by the spec (§4.4):
viewed as a map from bond-in to (physical, bond-out) the tensor is an isometry. -/
def RightCanonical {d χ : ℕ} (A : Fin d → Fin χ → Fin χ → R) : Prop :=
  ∀ b b', (∑ s, ∑ a, star (A s a b) * A s a b') = if b = b' then 1 else 0

instance {d χ : ℕ} [DecidableEq R] (A : Fin d → Fin χ → Fin χ → R) :
    Decidable (RightCanonical A) := by
  unfold RightCanonical; infer_instance

/-! ## Left fixed vector of the transfer matrix (for C1) -/

/-- For a right-canonical site tensor the flattened identity is a left fixed
vector of the per-site transfer matrix. -/
theorem rvec_vecMul_t_mat_site {d χ : ℕ} (A : Fin d → Fin χ → Fin χ → R)
    (h : RightCanonical A) : rvec χ ᵥ* t_mat_site A = rvec χ := by
  funext q
  simp only [Matrix.vecMul, Matrix.dotProduct, rvec, t_mat_site, t_tensor, Matrix.of_apply]
  rw [Fintype.sum_prod_type]
  simp only [ite_mul, one_mul, zero_mul, Finset.sum_ite_eq, Finset.mem_univ, if_true]
  rw [Finset.sum_comm]
  exact h q.1 q.2

omit [StarRing R] in
/-- A vector fixed (on the left) by every factor is fixed by the accumulated
`foldl` product that `transfer_matrix` builds. -/
theorem vecMul_foldl_fixed {n : Type} [Fintype n] [DecidableEq n] {ι : Type}
    (x : n → R) (f : ι → Matrix n n R) (l : List ι) (M : Matrix n n R)
    (h : ∀ j ∈ l, x ᵥ* f j = x) :
    x ᵥ* l.foldl (fun acc j => f j * acc) M = x ᵥ* M := by
  induction l generalizing M with
  | nil => rfl
  | cons j t ih =>
      rw [List.foldl_cons, ih _ (fun k hk => h k (List.mem_cons_of_mem _ hk)),
        ← Matrix.vecMul_vecMul, h j (List.mem_cons_self j t)]

theorem rvec_vecMul_transfer (s : MPS R) (h : ∀ j, RightCanonical (s.tensors j)) :
    rvec s.chi ᵥ* s.transfer_matrix = rvec s.chi := by
  unfold MPS.transfer_matrix
  rw [vecMul_foldl_fixed _ _ _ _ (fun j _ => rvec_vecMul_t_mat_site _ (h j)),
    Matrix.vecMul_one]

theorem rvec_vecMul_transfer_pow (s : MPS R) (h : ∀ j, RightCanonical (s.tensors j)) (L : ℕ) :
    rvec s.chi ᵥ* (s.transfer_matrix ^ L) = rvec s.chi := by
  induction L with
  | zero => rw [pow_zero, Matrix.vecMul_one]
  | succ n ih => rw [pow_succ, ← Matrix.vecMul_vecMul, ih, rvec_vecMul_transfer s h]

/-- C1: for a state whose unit-cell tensors are all right-canonical and whose
left boundary vector has unit norm, `expect` with no operator and trace-out
right boundary returns `1` for every finite chain length `L ≥ 1`,
independent of `L`. -/
theorem expect_rcf_traceout_eq_one (s : MPS R) (L : ℕ) (hL : s.L = some L) (hL1 : 1 ≤ L)
    (hr : s.bdry_r = none) (hrcf : ∀ j, RightCanonical (s.tensors j))
    (hnorm : (∑ a, star (s.bdry_l a) * s.bdry_l a) = 1) :
    s.expect none = .ok 1 := by
  simp only [MPS.expect, hL]
  refine congrArg Except.ok ?_
  simp only [expect_noop, hr]
  rw [Matrix.dotProduct_mulVec, rvec_vecMul_transfer_pow s hrcf]
  simp only [Matrix.dotProduct, rvec, kron2, Fintype.sum_prod_type, ite_mul, one_mul,
    zero_mul, Finset.sum_ite_eq, Finset.mem_univ, if_true]
  exact hnorm

/-- Witness for C1 at a concrete one-site, `chi = 1` entity over `ℤ`. -/
theorem expect_rcf_traceout_eq_one_witness :
    (⟨1, 1, 1, some 1, fun _ _ _ _ => 1, fun _ => 1, none⟩ : MPS ℤ).expect none = .ok 1 :=
  expect_rcf_traceout_eq_one _ 1 rfl (by decide) rfl (by decide) (by decide)

/-! ## C2: the spec's description of the no-operator transfer matrix -/

/-- The spec's per-site rank-4 object (§4.2): contract the conjugate tensor's
physical index with the tensor's physical index, giving indices
(bra-bond-out, bra-bond-in, ket-bond-out, ket-bond-in).  Stated from the spec's
words, for comparison with the code-derived `t_tensor`. -/
def specSiteRank4 {d χ : ℕ} (A : Fin d → Fin χ → Fin χ → R) (a b c e : Fin χ) : R :=
  ∑ s, star (A s a b) * A s c e

/-- The spec's per-site transfer matrix, flattened to a `chi² × chi²` matrix:
the pair (bra-bond-out, ket-bond-out) forms the row index and
(bra-bond-in, ket-bond-in) the column index, each pair `(x, y)` encoded
row-major as the flat index `x·chi + y` (that is `finProdFinEquiv`). -/
def specSiteMatrix {d χ : ℕ} (A : Fin d → Fin χ → Fin χ → R) :
    Matrix (Fin (χ * χ)) (Fin (χ * χ)) R :=
  Matrix.of fun i j =>
    specSiteRank4 A (finProdFinEquiv.symm i).1 (finProdFinEquiv.symm j).1
      (finProdFinEquiv.symm i).2 (finProdFinEquiv.symm j).2

/-- The spec's unit-cell composition (§4.2): `T = T_{l_uc-1} · … · T_1 · T_0`. -/
def specTransferMatrix (s : MPS R) : Matrix (Fin (s.chi * s.chi)) (Fin (s.chi * s.chi)) R :=
  (((List.finRange s.l_uc).map fun j => specSiteMatrix (s.tensors j)).reverse).prod

omit [StarRing R] in
/-- The accumulation loop of `transfer_matrix` computes the product of the
per-site matrices with site 0 applied first (rightmost factor). -/
theorem foldl_mul_eq_reverse_prod {n : Type} [Fintype n] [DecidableEq n] {ι : Type}
    (f : ι → Matrix n n R) (l : List ι) (a : Matrix n n R) :
    l.foldl (fun acc j => f j * acc) a = ((l.map f).reverse).prod * a := by
  induction l generalizing a with
  | nil => simp
  | cons j t ih =>
      rw [List.foldl_cons, ih, List.map_cons, List.reverse_cons, List.prod_append,
        List.prod_cons, List.prod_nil, mul_one, mul_assoc]

omit [StarRing R] in
/-- Reindexing along a bijection commutes with list products of matrices. -/
theorem prod_map_submatrix {n m : Type} [Fintype n] [DecidableEq n] [Fintype m]
    [DecidableEq m] {ι : Type} (e : m ≃ n) (g : ι → Matrix n n R) (l : List ι) :
    (l.map fun j => (g j).submatrix e e).prod = ((l.map g).prod).submatrix e e := by
  induction l with
  | nil => simp
  | cons j t ih => simp [List.prod_cons, ih, Matrix.submatrix_mul_equiv]

/-- C2: for every state entity with a non-empty unit cell, the matrix described
by the spec — per-site contraction over the physical index, reorder to
((bra-out, ket-out), (bra-in, ket-in)), flatten to `chi² × chi²`, and multiply
`T_{l_uc-1} · … · T_1 · T_0` — is exactly the code's `transfer_matrix`, read
through the row-major flattening of the doubled bond index. -/
theorem specTransferMatrix_eq (s : MPS R) (h : 1 ≤ s.l_uc) :
    specTransferMatrix s =
      s.transfer_matrix.submatrix finProdFinEquiv.symm finProdFinEquiv.symm := by
  unfold specTransferMatrix MPS.transfer_matrix
  rw [foldl_mul_eq_reverse_prod, mul_one]
  show ((List.finRange s.l_uc).map fun j =>
      (t_mat_site (s.tensors j)).submatrix finProdFinEquiv.symm finProdFinEquiv.symm
    ).reverse.prod = _
  rw [← List.map_reverse, ← List.map_reverse, prod_map_submatrix]

/-- Witness for C2 at a concrete one-site, `chi = 2` entity over `ℤ`. -/
theorem specTransferMatrix_eq_witness :
    1 ≤ (⟨1, 2, 1, some 1, fun _ _ _ _ => 1, fun _ => 1, none⟩ : MPS ℤ).l_uc ∧
    specTransferMatrix (⟨1, 2, 1, some 1, fun _ _ _ _ => 1, fun _ => 1, none⟩ : MPS ℤ) =
      (MPS.transfer_matrix
          (⟨1, 2, 1, some 1, fun _ _ _ _ => 1, fun _ => 1, none⟩ : MPS ℤ)).submatrix
        finProdFinEquiv.symm finProdFinEquiv.symm :=
  ⟨by decide, specTransferMatrix_eq _ (by decide)⟩

/-! ## C3: finite chain with fixed boundary vectors -/

/-- The spec's contraction vector for a fixed boundary vector `v` (§4.3):
the Kronecker product of the conjugated bra copy with the ket copy. -/
def specBoundaryKron {χ : ℕ} (v : Fin χ → R) : Fin χ × Fin χ → R :=
  fun p => star (v p.1) * v p.2

/-- The spec's contraction vector with an operator boundary vector `w`
Kronecker-inserted between the bra and ket factors (§4.3 step 2). -/
def specBoundaryKron3 {χ χo : ℕ} (v : Fin χ → R) (w : Fin χo → R) :
    Fin χ × (Fin χo × Fin χ) → R :=
  fun p => star (v p.1) * (w p.2.1 * v p.2.2)

/-- C3: with finite `L ≥ 1` and fixed (non-sentinel) boundary vectors, `expect`
returns `rightVec† · T^L · leftVec` with the contraction vectors built as the
spec's Kronecker products; with an operator inserted, the operator's boundary
vectors are Kronecker-inserted between the bra and ket factors. -/
theorem expect_fixed_boundaries_formula (s : MPS R) (L : ℕ) (r : Fin s.chi → R)
    (W : MPO R s.d s.l_uc) (hL : s.L = some L) (hL1 : 1 ≤ L) (hr : s.bdry_r = some r) :
    s.expect none =
      .ok (star (specBoundaryKron r) ⬝ᵥ
        ((s.transfer_matrix ^ L) *ᵥ specBoundaryKron s.bdry_l)) ∧
    s.expect (some W) =
      .ok (star (specBoundaryKron3 r W.bdry_r) ⬝ᵥ
        ((s.transfer_matrix_mpo W ^ L) *ᵥ specBoundaryKron3 s.bdry_l W.bdry_l)) := by
  constructor
  · simp only [MPS.expect, hL, expect_noop, hr]
    rfl
  · simp only [MPS.expect, hL, expect_mpo, hr]
    rfl

/-- Witness for C3 at concrete `chi = 1` state and operator entities over `ℤ`. -/
theorem expect_fixed_boundaries_formula_witness :
    (⟨1, 1, 1, some 1, fun _ _ _ _ => 1, fun _ => 1, some fun _ => 1⟩ : MPS ℤ).expect none
        = .ok 1 ∧
    (⟨1, 1, 1, some 1, fun _ _ _ _ => 1, fun _ => 1, some fun _ => 1⟩ : MPS ℤ).expect
        (some ⟨1, fun _ _ _ _ _ => 1, fun _ => 1, fun _ => 1⟩) = .ok 1 := by
  have h := expect_fixed_boundaries_formula
    (⟨1, 1, 1, some 1, fun _ _ _ _ => 1, fun _ => 1, some fun _ => 1⟩ : MPS ℤ) 1
    (fun _ => 1) ⟨1, fun _ _ _ _ _ => 1, fun _ => 1, fun _ => 1⟩ rfl (by decide) rfl
  exact ⟨h.1.trans (congrArg Except.ok (by decide)),
    h.2.trans (congrArg Except.ok (by decide))⟩

/-! ## C7: the identity operator reproduces the no-operator expectation -/

/-- The identity operator unit cell: bond dimension 1 (trivial bond structure),
every site tensor the identity map on the physical leg, unit boundary vectors. -/
def idMPO (R : Type) [CommRing R] (d l_uc : ℕ) : MPO R d l_uc :=
  ⟨1, fun _ s _ t _ => if s = t then 1 else 0, fun _ => 1, fun _ => 1⟩

/-- With a trivial (`chi_op = 1`) operator bond, the sandwiched bond space is
just the doubled bond space. -/
def idBondEquiv (χ : ℕ) : Fin χ × (Fin 1 × Fin χ) ≃ Fin χ × Fin χ where
  toFun p := (p.1, p.2.2)
  invFun q := (q.1, 0, q.2)
  left_inv p := by
    obtain ⟨a, m, c⟩ := p
    rw [Fin.eq_zero m]
  right_inv q := rfl

/-- The per-site transfer matrix sandwiching an identity operator tensor is the
no-operator per-site transfer matrix, read through `idBondEquiv`. -/
theorem t_mat_site_idMPO {d χ : ℕ} (A : Fin d → Fin χ → Fin χ → R) :
    t_mat_site_mpo A (fun s _ t _ => if s = t then (1 : R) else 0) =
      (t_mat_site A).submatrix (idBondEquiv χ) (idBondEquiv χ) := by
  ext p q
  simp [t_mat_site_mpo, mpo_on_ket, t_mat_site, t_tensor, idBondEquiv,
    ite_mul, Finset.sum_ite_eq]

omit [StarRing R] in
/-- Reindexing along a bijection commutes with the `transfer_matrix`
accumulation loop. -/
theorem foldl_mul_submatrix {n m : Type} [Fintype n] [DecidableEq n] [Fintype m]
    [DecidableEq m] {ι : Type} (e : m ≃ n) (g : ι → Matrix n n R) (l : List ι)
    (a : Matrix n n R) :
    l.foldl (fun acc j => (g j).submatrix e e * acc) (a.submatrix e e) =
      (l.foldl (fun acc j => g j * acc) a).submatrix e e := by
  induction l generalizing a with
  | nil => rfl
  | cons j t ih => rw [List.foldl_cons, List.foldl_cons, Matrix.submatrix_mul_equiv, ih]

omit [StarRing R] in
/-- Reindexing along a bijection commutes with matrix powers. -/
theorem pow_submatrix {n m : Type} [Fintype n] [DecidableEq n] [Fintype m]
    [DecidableEq m] (e : m ≃ n) (M : Matrix n n R) (L : ℕ) :
    (M.submatrix e e) ^ L = (M ^ L).submatrix e e := by
  induction L with
  | zero => simp
  | succ k ih => rw [pow_succ, pow_succ, ih, Matrix.submatrix_mul_equiv]

/-- The transfer matrix sandwiching the identity operator is the no-operator
transfer matrix, read through `idBondEquiv`. -/
theorem transfer_matrix_mpo_idMPO (s : MPS R) :
    s.transfer_matrix_mpo (idMPO R s.d s.l_uc) =
      s.transfer_matrix.submatrix (idBondEquiv s.chi) (idBondEquiv s.chi) := by
  unfold MPS.transfer_matrix_mpo MPS.transfer_matrix
  simp only [idMPO, t_mat_site_idMPO]
  rw [show (1 : Matrix (Fin s.chi × (Fin 1 × Fin s.chi)) _ R) =
      (1 : Matrix (Fin s.chi × Fin s.chi) _ R).submatrix (idBondEquiv s.chi) (idBondEquiv s.chi)
    from (Matrix.submatrix_one_equiv _).symm]
  exact foldl_mul_submatrix _ _ _ _

/-- C7: inserting the identity operator entity yields exactly the same
expectation value as calling `expect` with no operator, for every finite
chain length `L ≥ 1` and either kind of right boundary. -/
theorem expect_idMPO_eq_expect_noop (s : MPS R) (L : ℕ) (hL : s.L = some L)
    (hL1 : 1 ≤ L) :
    s.expect (some (idMPO R s.d s.l_uc)) = s.expect none := by
  simp only [MPS.expect, hL]
  refine congrArg Except.ok ?_
  have hbl : kron3 s.bdry_l (fun _ : Fin 1 => (1 : R)) ∘ ⇑(idBondEquiv s.chi).symm
      = kron2 s.bdry_l := by
    funext q
    simp [kron3, kron2, idBondEquiv]
  cases hbr : s.bdry_r with
  | none =>
      simp only [expect_mpo, expect_noop, hbr]
      rw [transfer_matrix_mpo_idMPO, pow_submatrix]
      simp only [idMPO]
      rw [Matrix.submatrix_mulVec_equiv, hbl]
      congr 1
      funext p
      simp [idBondEquiv, Fin.sum_univ_one, Function.comp]
  | some r =>
      simp only [expect_mpo, expect_noop, hbr]
      rw [transfer_matrix_mpo_idMPO, pow_submatrix]
      simp only [idMPO]
      rw [Matrix.submatrix_mulVec_equiv, hbl]
      simp only [Matrix.dotProduct]
      refine Fintype.sum_equiv (idBondEquiv s.chi) _ _ fun p => ?_
      simp [kron3, kron2, idBondEquiv, Function.comp]

/-- Witness for C7 at a concrete `chi = 2`, `d = 2` entity over `ℤ`. -/
theorem expect_idMPO_eq_expect_noop_witness :
    (⟨2, 2, 1, some 2, fun _ _ _ _ => 1, fun _ => 1, none⟩ : MPS ℤ).expect
        (some (idMPO ℤ 2 1)) =
      (⟨2, 2, 1, some 2, fun _ _ _ _ => 1, fun _ => 1, none⟩ : MPS ℤ).expect none :=
  expect_idMPO_eq_expect_noop _ 2 rfl (by decide)

/-! ## The raw constructor `MPS.__init__` (for C5, C6) -/

/-- A raw numpy rank-3 array as passed to `MPS.__init__`, of shape
`(d, chiOut, chiIn)` — different list elements may have different shapes. -/
structure RawTensor (R : Type) where
  d : ℕ
  chiOut : ℕ
  chiIn : ℕ
  entries : Fin d → Fin chiOut → Fin chiIn → R

/-- A raw numpy vector of arbitrary length. -/
structure RawVec (R : Type) where
  n : ℕ
  entries : Fin n → R

/-- The fields the Python `MPS.__init__` stores on success (mps.py lines 36-61):
the tensor list is kept unchanged; `d` and `chi` are read from `tensors[0]` only. -/
structure MPSRaw (R : Type) where
  l_uc : ℕ
  L : Option ℕ
  tensors : List (RawTensor R)
  d : ℕ
  chi : ℕ
  bdry_l : RawVec R
  bdry_r : Option (RawVec R)

/-- `MPS.__init__` (mps.py lines 23-61), control flow modelled faithfully:
* an empty tensor list, or a zero dimension of `tensors[0]`, makes the shape
  reads `tensors[0][:,0,0]` / `tensors[0][0,:,0]` (lines 40-41) raise
  `IndexError`;
* `d` and `chi` come from `tensors[0]` alone — no other tensor's shape is
  inspected and no cross-tensor validation of any kind is performed;
* an unspecified (`None`) left boundary vector takes the branch that executes
  `self.bdry_vec[0][0] = 1` (line 48), which raises `AttributeError` because
  the attribute is spelled `bdry_vecs`; the adjacent comment shows the intent
  was the basis vector `(1, 0, 0, ...)`;
* an explicitly supplied boundary vector whose size differs from `chi` raises
  `ValueError` (lines 50-51, 58-59);
* an unspecified (`None`) right boundary vector is stored as the trace-out
  sentinel (line 56). -/
def mps_init (tensors : List (RawTensor R)) (L : Option ℕ)
    (bl br : Option (RawVec R)) : Except PyError (MPSRaw R) :=
  match tensors with
  | [] => .error .indexError
  | t0 :: _ =>
      if t0.d = 0 ∨ t0.chiOut = 0 ∨ t0.chiIn = 0 then .error .indexError
      else
        let chi := t0.chiOut
        match bl with
        | none => .error .attributeError
        | some v =>
            if v.n ≠ chi then .error .valueError
            else
              match br with
              | none => .ok ⟨tensors.length, L, tensors, t0.d, chi, v, none⟩
              | some w =>
                  if w.n ≠ chi then .error .valueError
                  else .ok ⟨tensors.length, L, tensors, t0.d, chi, v, some w⟩

/-- C5 (evaluation at the claimed failing input): constructing from two site
tensors with bond dimensions `chi = 2` and `chi = 4` (explicit length-2 left
boundary vector, default right boundary) raises nothing at all — `__init__`
reads `d` and `chi` from the first tensor only and performs no cross-tensor
shape validation, so no `ShapeMismatchError` (or any error) occurs. -/
theorem mps_init_mismatched_tensors_ok :
    (mps_init (R := ℤ) [⟨2, 2, 2, fun _ _ _ => 1⟩, ⟨2, 4, 4, fun _ _ _ => 1⟩]
      (some 2) (some ⟨2, fun _ => 1⟩) none).isOk = true := rfl

/-- C6 (evaluation at the failing input): constructing with the default
(unspecified) left boundary vector does not produce the first standard basis
vector — line 48 of mps.py writes to the misspelled attribute `bdry_vec`, so
`__init__` raises `AttributeError` for every tensor input. -/
theorem mps_init_default_left_raises :
    mps_init (R := ℤ) [⟨2, 2, 2, fun _ _ _ => 1⟩] (some 1) none none
      = .error .attributeError := rfl

/-- C9 (evaluation at the failing input): a finite chain length `L ≤ 0` is not
rejected by `expect` — with `L = 0` the matrix power `T^0` is the identity and
the boundary contraction is returned as an ordinary scalar (here `1`),
instead of an `InvalidArgumentError`. -/
theorem expect_L_zero_returns_scalar :
    (⟨1, 1, 1, some 0, fun _ _ _ _ => 1, fun _ => 1, none⟩ : MPS ℤ).expect none
      = .ok 1 := congrArg Except.ok (by decide)

/-! ## C10: the trace-out norm is a nonnegative real number -/

omit [CommRing R] [StarRing R] in
/-- Pull the two innermost sums of a quadruple sum to the outside. -/
theorem sum_swap_4 {M α β γ δ : Type} [AddCommMonoid M] [Fintype α] [Fintype β]
    [Fintype γ] [Fintype δ] (f : α → β → γ → δ → M) :
    (∑ b, ∑ e, ∑ s, ∑ i, f b e s i) = ∑ s, ∑ i, ∑ b, ∑ e, f b e s i :=
  calc (∑ b, ∑ e, ∑ s, ∑ i, f b e s i)
      = ∑ b, ∑ s, ∑ e, ∑ i, f b e s i :=
        Finset.sum_congr rfl fun _ _ => Finset.sum_comm
    _ = ∑ s, ∑ b, ∑ e, ∑ i, f b e s i := Finset.sum_comm
    _ = ∑ s, ∑ b, ∑ i, ∑ e, f b e s i :=
        Finset.sum_congr rfl fun _ _ => Finset.sum_congr rfl fun _ _ => Finset.sum_comm
    _ = ∑ s, ∑ i, ∑ b, ∑ e, f b e s i :=
        Finset.sum_congr rfl fun _ _ => Finset.sum_comm

omit [StarRing R] in
/-- `rvec ⬝ᵥ w` sums the diagonal entries of the doubled-bond vector `w`. -/
theorem rvec_dotProduct_eq_trace {χ : ℕ} (w : Fin χ × Fin χ → R) :
    rvec χ ⬝ᵥ w = ∑ a, w (a, a) := by
  simp [Matrix.dotProduct, rvec, Fintype.sum_prod_type, ite_mul, Finset.sum_ite_eq]

/-- A doubled-bond vector of the shape `∑ i, conj (x i a) · x i c` — the shape
that `T^L · (l̄ ⊗ l)` always has, in exact complex arithmetic. -/
def SumConjSquares {χ : ℕ} (v : Fin χ × Fin χ → ℂ) : Prop :=
  ∃ (k : ℕ) (x : Fin k → Fin χ → ℂ), ∀ p, v p = ∑ i, star (x i p.1) * x i p.2

theorem sumConjSquares_kron2 {χ : ℕ} (l : Fin χ → ℂ) : SumConjSquares (kron2 l) :=
  ⟨1, fun _ => l, fun p => by simp [kron2, Fin.sum_univ_one]⟩

/-- Applying a per-site transfer matrix to a sum of conjugate-squares yields a
sum of conjugate-squares (with the physical index absorbed into the family). -/
theorem sumConjSquares_mulVec_t_mat_site {d χ : ℕ} (A : Fin d → Fin χ → Fin χ → ℂ)
    {v : Fin χ × Fin χ → ℂ} (hv : SumConjSquares v) :
    SumConjSquares (t_mat_site A *ᵥ v) := by
  obtain ⟨k, x, hx⟩ := hv
  set u : Fin d × Fin k → Fin χ → ℂ := fun si a => ∑ b, A si.1 a b * x si.2 b with hu
  refine ⟨d * k, fun i => u (finProdFinEquiv.symm i), fun p => ?_⟩
  have hpair : (t_mat_site A *ᵥ v) p
      = ∑ si : Fin d × Fin k, star (u si p.1) * u si p.2 := by
    simp only [Matrix.mulVec, Matrix.dotProduct, t_mat_site, t_tensor, Matrix.of_apply, hx,
      hu, star_sum, star_mul', Finset.sum_mul_sum]
    rw [Fintype.sum_prod_type]
    rw [Fintype.sum_prod_type]
    rw [sum_swap_4]
    exact Finset.sum_congr rfl fun s _ => Finset.sum_congr rfl fun i _ =>
      Finset.sum_congr rfl fun b _ => Finset.sum_congr rfl fun e _ => mul_mul_mul_comm _ _ _ _
  exact hpair.trans (Equiv.sum_comp finProdFinEquiv.symm
    fun si => star (u si p.1) * u si p.2).symm

/-- `SumConjSquares` is preserved by multiplying with any product of matrices
that each preserve it. -/
theorem sumConjSquares_listProd_mulVec {χ : ℕ}
    (ms : List (Matrix (Fin χ × Fin χ) (Fin χ × Fin χ) ℂ))
    {v : Fin χ × Fin χ → ℂ} (hv : SumConjSquares v)
    (hm : ∀ m ∈ ms, ∀ w : Fin χ × Fin χ → ℂ, SumConjSquares w → SumConjSquares (m *ᵥ w)) :
    SumConjSquares (ms.prod *ᵥ v) := by
  revert hm
  induction ms with
  | nil =>
      intro _
      simpa using hv
  | cons m t ih =>
      intro hm
      rw [List.prod_cons, ← Matrix.mulVec_mulVec]
      exact hm m (List.mem_cons_self m t) _
        (ih fun m' h' w hw => hm m' (List.mem_cons_of_mem _ h') w hw)

theorem sumConjSquares_transfer_mulVec (s : MPS ℂ) {v : Fin s.chi × Fin s.chi → ℂ}
    (hv : SumConjSquares v) : SumConjSquares (s.transfer_matrix *ᵥ v) := by
  have hT : s.transfer_matrix
      = (((List.finRange s.l_uc).map fun j => t_mat_site (s.tensors j)).reverse).prod := by
    unfold MPS.transfer_matrix
    rw [foldl_mul_eq_reverse_prod, mul_one]
  rw [hT]
  refine sumConjSquares_listProd_mulVec _ hv ?_
  intro m hm w hw
  rw [List.mem_reverse, List.mem_map] at hm
  obtain ⟨j, -, rfl⟩ := hm
  exact sumConjSquares_mulVec_t_mat_site _ hw

theorem sumConjSquares_transfer_pow_mulVec (s : MPS ℂ) (L : ℕ)
    {v : Fin s.chi × Fin s.chi → ℂ} (hv : SumConjSquares v) :
    SumConjSquares ((s.transfer_matrix ^ L) *ᵥ v) := by
  induction L with
  | zero => simpa using hv
  | succ n ih =>
      rw [pow_succ', ← Matrix.mulVec_mulVec]
      exact sumConjSquares_transfer_mulVec s ih

/-- The diagonal sum of a sum of conjugate-squares is a nonnegative real. -/
theorem sumConjSquares_trace_nonneg {χ : ℕ} {v : Fin χ × Fin χ → ℂ}
    (hv : SumConjSquares v) : ∃ t : ℝ, 0 ≤ t ∧ (∑ a, v (a, a)) = (t : ℂ) := by
  obtain ⟨k, x, hx⟩ := hv
  refine ⟨∑ a, ∑ i, Complex.normSq (x i a),
    Finset.sum_nonneg fun _ _ => Finset.sum_nonneg fun _ _ => Complex.normSq_nonneg _, ?_⟩
  rw [Complex.ofReal_sum]
  refine Finset.sum_congr rfl fun a _ => ?_
  rw [hx, Complex.ofReal_sum]
  refine Finset.sum_congr rfl fun i _ => ?_
  rw [congrFun Complex.star_def (x i a), mul_comm, Complex.mul_conj]

/-- C10: with a fixed left boundary vector, finite `L ≥ 1`, no operator and
trace-out right boundary, the scalar `expect` returns is a nonnegative real
number, for arbitrary (not necessarily canonical) complex tensors: in exact
arithmetic it is a sum of squared moduli of amplitudes. -/
theorem expect_traceout_nonneg_real (s : MPS ℂ) (L : ℕ) (hL : s.L = some L)
    (hL1 : 1 ≤ L) (hr : s.bdry_r = none) :
    ∃ t : ℝ, 0 ≤ t ∧ s.expect none = .ok (t : ℂ) := by
  obtain ⟨t, ht0, ht⟩ := sumConjSquares_trace_nonneg
    (sumConjSquares_transfer_pow_mulVec s L (sumConjSquares_kron2 s.bdry_l))
  refine ⟨t, ht0, ?_⟩
  simp only [MPS.expect, hL, expect_noop, hr]
  refine congrArg Except.ok ?_
  rw [rvec_dotProduct_eq_trace, ht]

/-- Witness for C10 at a concrete one-site, `chi = 1` entity over `ℂ`. -/
theorem expect_traceout_nonneg_real_witness :
    ∃ t : ℝ, 0 ≤ t ∧
      (⟨1, 1, 1, some 1, fun _ _ _ _ => 1, fun _ => 1, none⟩ : MPS ℂ).expect none
        = .ok (t : ℂ) :=
  expect_traceout_nonneg_real _ 1 rfl (by decide) rfl

/-! ## C4: the infinite-chain (iMPS) expectation — modelled from the spec -/

section Imps

variable {F : Type} [Field F] [StarRing F]

/-- Modelled from the spec: `MPS.expect` raises `NotImplementedError` when the
chain length is the infinite sentinel (mps.py line 157), so the infinite-chain
algorithm is missing from the source.  Spec §4.3 (Infinite chain) defines the
intended value with an inserted operator as the ratio
`(rightVec-or-trace)† · T_op · v_fix / (rightVec-or-trace)† · v_fix`, where
`v_fix` is the fixed point of the no-operator transfer matrix reached from the
left boundary vector (equivalently its eigenvalue-1 eigenvector), the operator
boundary vectors Kronecker-inserted between the bra and ket factors exactly as
in the finite-chain formula, and the trace-out right boundary contracting the
operator's right boundary vector and then the flattened bond-space identity as
in the finite-chain formula. -/
def expect_imps (s : MPS F) (W : MPO F s.d s.l_uc)
    (vfix : Fin s.chi × Fin s.chi → F) : F :=
  let tOp := s.transfer_matrix_mpo W
  let ins : Fin s.chi × (Fin W.chi × Fin s.chi) → F :=
    fun p => W.bdry_l p.2.1 * vfix (p.1, p.2.2)
  let num :=
    match s.bdry_r with
    | none => rvec s.chi ⬝ᵥ fun p => ∑ m, W.bdry_r m * (tOp *ᵥ ins) (p.1, m, p.2)
    | some r => star (kron3 r W.bdry_r) ⬝ᵥ (tOp *ᵥ ins)
  let den :=
    match s.bdry_r with
    | none => rvec s.chi ⬝ᵥ vfix
    | some r => star (kron2 r) ⬝ᵥ vfix
  num / den

/-- C4: for a state with the infinite sentinel chain length the source code
raises `NotImplementedError`, and the spec-modelled operation returns the
fixed-point ratio: the value is invariant under applying any further power of
the no-operator transfer matrix to `v_fix`, so the fixed point replaces the
literal unbounded matrix power. -/
theorem expect_imps_fixed_point_ratio (s : MPS F) (W : MPO F s.d s.l_uc)
    (vfix : Fin s.chi × Fin s.chi → F) (n : ℕ) (hinf : s.L = none)
    (hfix : s.transfer_matrix *ᵥ vfix = vfix) :
    s.expect (some W) = .error .notImplementedError ∧
    expect_imps s W ((s.transfer_matrix ^ n) *ᵥ vfix) = expect_imps s W vfix := by
  refine ⟨by simp only [MPS.expect, hinf], ?_⟩
  have hp : (s.transfer_matrix ^ n) *ᵥ vfix = vfix := by
    induction n with
    | zero => rw [pow_zero, Matrix.one_mulVec]
    | succ m ih => rw [pow_succ', ← Matrix.mulVec_mulVec, ih, hfix]
  rw [hp]

end Imps

/-- Witness for C4 at a concrete one-site, `chi = 1` entity over `ℚ`. -/
theorem expect_imps_fixed_point_ratio_witness :
    (⟨1, 1, 1, none, fun _ _ _ _ => 1, fun _ => 1, none⟩ : MPS ℚ).expect
        (some ⟨1, fun _ _ _ _ _ => 1, fun _ => 1, fun _ => 1⟩)
      = .error .notImplementedError ∧
    expect_imps (⟨1, 1, 1, none, fun _ _ _ _ => 1, fun _ => 1, none⟩ : MPS ℚ)
        ⟨1, fun _ _ _ _ _ => 1, fun _ => 1, fun _ => 1⟩
        (((⟨1, 1, 1, none, fun _ _ _ _ => 1, fun _ => 1, none⟩ : MPS ℚ).transfer_matrix ^ 2)
          *ᵥ fun _ => 1)
      = expect_imps (⟨1, 1, 1, none, fun _ _ _ _ => 1, fun _ => 1, none⟩ : MPS ℚ)
          ⟨1, fun _ _ _ _ _ => 1, fun _ => 1, fun _ => 1⟩ fun _ => 1 :=
  expect_imps_fixed_point_ratio _ _ (fun _ => 1) 2 rfl (by
    have hT : (⟨1, 1, 1, none, fun _ _ _ _ => 1, fun _ => 1, none⟩ : MPS ℚ).transfer_matrix
        = t_mat_site (fun _ _ _ => (1 : ℚ)) * 1 := rfl
    rw [hT, mul_one]
    funext p
    simp [t_mat_site, t_tensor, Matrix.mulVec, Matrix.dotProduct, Fintype.sum_prod_type,
      Fin.sum_univ_one])

/-! ## C8: the canonical-form check — modelled from the spec -/

/-- The Gram matrix of a site tensor on the bond-in index: contract physical
and bond-out against the conjugate tensor's physical and bond-out. -/
def site_gram {d χ : ℕ} (A : Fin d → Fin χ → Fin χ → R) : Matrix (Fin χ) (Fin χ) R :=
  Matrix.of fun b b' => ∑ s, ∑ a, star (A s a b) * A s a b'

/-- Modelled from the spec: `MPS.check_rcf` is a `NotImplementedError` stub
(mps.py lines 164-169), so the check itself is missing from the source.  Spec
§4.4 `checkCanonical`: for each site tensor compare the contraction `site_gram`
against the identity matrix within a numerical tolerance `ε` (maximum absolute
deviation at most `ε`); the check passes iff all sites pass. -/
def check_rcf (s : MPS ℂ) (ε : ℝ) : Prop :=
  ∀ j, ∀ b b',
    Complex.abs (site_gram (s.tensors j) b b' - (if b = b' then 1 else 0)) ≤ ε

/-- C8: the modelled check succeeds at tolerance `ε` iff every site's
contraction deviates entrywise from the identity matrix by at most `ε`; at
zero tolerance (exact arithmetic) this is precisely the right-canonical
isometry property of every site tensor. -/
theorem check_rcf_iff (s : MPS ℂ) (ε : ℝ) :
    (check_rcf s ε ↔
      ∀ j, ∀ b b', Complex.abs ((site_gram (s.tensors j) - 1) b b') ≤ ε) ∧
    (check_rcf s 0 ↔ ∀ j, RightCanonical (s.tensors j)) := by
  constructor
  · unfold check_rcf
    refine forall_congr' fun j => forall_congr' fun b => forall_congr' fun b' => ?_
    rw [Matrix.sub_apply, Matrix.one_apply]
  · constructor
    · intro h j b b'
      have h2 : Complex.abs (site_gram (s.tensors j) b b' - (if b = b' then 1 else 0)) = 0 :=
        le_antisymm (h j b b') (Complex.abs.nonneg _)
      rw [map_eq_zero] at h2
      have h3 := sub_eq_zero.mp h2
      simpa [site_gram] using h3
    · intro h j b b'
      have hg : site_gram (s.tensors j) b b' = (if b = b' then (1 : ℂ) else 0) := h j b b'
      rw [hg, sub_self, map_zero]
